import Mathlib

/-!
# Cassette encoder (`encode.c`)

A shallow embedding of `encode.c`, the program that turns a byte stream into
the unsigned 8-bit PCM samples of an Apple ][ cassette recording.

Modelling conventions.

* `size_t` values are `Nat`; none of the products below reaches `2^64`.
* The program is given first with `double` idealised as `ℝ`, `M_PI` as
  `Real.pi` and `sin` as `Real.sin`.  This idealisation fixes which calls of
  `write_wave` are made and how many samples each writes, but not every sample
  value, which rounding can change.  The section on IEEE double arithmetic
  gives `write_wave` with the rounding of the program (`Binary64.write_wave`),
  and the statements about the accumulated angle are made there.
* `char` is represented by its 8-bit pattern, a `Nat` below `256`.  The three
  operations applied to a `char` in the program (`& 0x80`, `<<= 1`, `^=`) act
  on that pattern in the same way whether `char` is signed or unsigned on a
  two's complement machine.
* The output file is the list of bytes written to it, in order.  Every byte
  reaches the file through `write_wave`, so the program is given twice: once
  producing the samples, once producing the sequence of `write_wave` calls
  (`WaveCall`), and the two are related by `main_eq_run`.
* Reads succeed.  `main` and `main_calls` describe the runs in which every
  write succeeds; `main_exit` gives the exit status on a file whose writes may
  fail, where `fails k` tells whether the `k`-th call of `fputc` fails.
* `parse_args` is the argument parsing loop of `main`; what `fopen` returns is
  not modelled, only the path it is called on.
-/

namespace CassetteEncoder

/-! ## Constants -/

/-- Sample rate of the output. -/
def SAMPLE_RATE : Nat := 44100

/-- Duration of the entry tone in samples: `SAMPLE_RATE * 106 / 100` in
`size_t` arithmetic. -/
def ENTRY_TONE_DURATION : Nat := SAMPLE_RATE * 106 / 100

/-- Conversion to `size_t` of the `double` quotient `n / 1E6`, for a `size_t`
numerator `n`.  The conversion discards the fractional part, and for the four
numerators used below the exact quotients (57.33, 17.64, 22.05, 44.1) are far
from an integer, so the result is the integer quotient. -/
def div_1E6 (n : Nat) : Nat := n / 1000000

/-- Period of the entry tone in samples: `SAMPLE_RATE * 1300 / 1E6`. -/
def ENTRY_TONE_PERIOD : Nat := div_1E6 (SAMPLE_RATE * 1300)

/-- Period of the tape-in tone in samples: `SAMPLE_RATE * 400 / 1E6`. -/
def TAPE_IN_PERIOD : Nat := div_1E6 (SAMPLE_RATE * 400)

/-- Period of a zero bit in samples: `SAMPLE_RATE * 500 / 1E6`. -/
def ZERO_PERIOD : Nat := div_1E6 (SAMPLE_RATE * 500)

/-- Period of a one bit in samples: `SAMPLE_RATE * 1000 / 1E6`. -/
def ONE_PERIOD : Nat := div_1E6 (SAMPLE_RATE * 1000)

/-- Change of the angle per sample for a tone of the given period:
`M_PI * 2.0 / (double)period`. -/
noncomputable def delta_theta (period : Nat) : ℝ := Real.pi * 2.0 / (period : ℝ)

/-- The constant `ENTRY_TONE_DELTA_THETA`. -/
noncomputable def ENTRY_TONE_DELTA_THETA : ℝ := delta_theta ENTRY_TONE_PERIOD

/-- The constant `TAPE_IN_DELTA_THETA`. -/
noncomputable def TAPE_IN_DELTA_THETA : ℝ := delta_theta TAPE_IN_PERIOD

/-- The constant `ZERO_DELTA_THETA`. -/
noncomputable def ZERO_DELTA_THETA : ℝ := delta_theta ZERO_PERIOD

/-- The constant `ONE_DELTA_THETA`. -/
noncomputable def ONE_DELTA_THETA : ℝ := delta_theta ONE_PERIOD

/-! ## Conversions -/

/-- Conversion `(int)x` of a `double`: the fractional part is discarded
(rounding toward zero). -/
noncomputable def truncate (x : ℝ) : Int := if 0 ≤ x then ⌊x⌋ else ⌈x⌉

/-- The byte that `fputc(c, out)` appends to the file: `c` converted to
`unsigned char`. -/
def fputc (c : Int) : Nat := (c % 256).toNat

/-- Conversion `(char)c` of an `int`, as an 8-bit pattern. -/
def to_char (c : Int) : Nat := (c % 256).toNat

/-! ## Input file -/

/-- The input stream: the bytes not yet read and the end-of-file indicator. -/
structure InFile where
  /-- Bytes not yet read. -/
  bytes : List Nat
  /-- End-of-file indicator, set by a read at the end of the stream. -/
  eof : Bool
deriving DecidableEq, Repr

/-- A freshly opened stream holding the bytes `bs`. -/
def InFile.opened (bs : List Nat) : InFile := { bytes := bs, eof := false }

/-- The value `EOF`. -/
def EOF : Int := -1

/-- Reads one byte: returns it as an `unsigned char` converted to `int`, or
sets the end-of-file indicator and returns `EOF` when nothing is left. -/
def fgetc (f : InFile) : Int × InFile :=
  match f.bytes with
  | [] => (EOF, { f with eof := true })
  | b :: rest => (((b % 256 : Nat) : Int), { f with bytes := rest })

/-- Tests the end-of-file indicator. -/
def feof (f : InFile) : Bool := f.eof

/-! ## The program, producing samples -/

/-- Samples written by `write_wave(out, samples, dt, t)`, with `double`
idealised as `ℝ`. -/
noncomputable def write_wave : Nat → ℝ → ℝ → List Nat
  | 0, _, _ => []
  | samples + 1, dt, t =>
    fputc (truncate (127.0 * Real.sin t + 127.0)) :: write_wave samples dt (t + dt)

/-- Value of the variable `t` of `write_wave` after `i` iterations, with
`double` idealised as `ℝ`. -/
noncomputable def write_wave_t : Nat → ℝ → ℝ → ℝ
  | 0, _, t => t
  | i + 1, dt, t => write_wave_t i dt (t + dt)

/-- The loop of `write_byte` with `n` iterations left. -/
noncomputable def write_byte_loop : Nat → Nat → List Nat
  | 0, _ => []
  | n + 1, data =>
    (if data &&& 0x80 ≠ 0 then write_wave ONE_PERIOD ONE_DELTA_THETA 0.0
      else write_wave ZERO_PERIOD ZERO_DELTA_THETA 0.0)
      ++ write_byte_loop n ((data <<< 1) % 256)

/-- Samples written by `write_byte(out, data)`. -/
noncomputable def write_byte (data : Nat) : List Nat := write_byte_loop 8 data

/-- Samples written by `write_tape_in_tone(out)`. -/
noncomputable def write_tape_in_tone : List Nat :=
  write_wave (TAPE_IN_PERIOD / 2) TAPE_IN_DELTA_THETA 0.0
    ++ write_wave (ZERO_PERIOD / 2) ZERO_DELTA_THETA Real.pi

/-- Samples written by `write_entry_tone(out)`. -/
noncomputable def write_entry_tone : List Nat :=
  write_wave ENTRY_TONE_DURATION ENTRY_TONE_DELTA_THETA 0.0

/-- The `while (1)` loop of `main`: the state is the checksum, the output
written so far and the input stream; the result is the checksum and the output
when the loop is left through `break`. -/
noncomputable def main_loop (checksum : Nat) (out : List Nat) (infile : InFile) :
    Nat × List Nat :=
  let data := to_char (fgetc infile).1
  if _h : feof (fgetc infile).2 = true then (checksum, out)
  else main_loop ((checksum ^^^ data) % 256) (out ++ write_byte data) (fgetc infile).2
termination_by infile.bytes.length
decreasing_by
  cases infile with
  | mk bytes eof =>
    cases bytes with
    | nil => simp [fgetc, feof] at _h
    | cons b rest => simp [fgetc]

/-- Contents of the output file after `main` has run on the input stream. -/
noncomputable def main (infile : InFile) : List Nat :=
  let out := write_entry_tone ++ write_tape_in_tone
  let r := main_loop 0xFF out infile
  r.2 ++ write_byte r.1

/-! ## The program, producing the sequence of `write_wave` calls -/

/-- Start angle of a wave: the program only uses `0.0` and `M_PI`. -/
inductive StartAngle where
  | zero
  | pi
deriving DecidableEq, Repr

/-- One call `write_wave(out, samples, M_PI * 2.0 / (double)period, t)`. -/
structure WaveCall where
  /-- Number of samples to write. -/
  samples : Nat
  /-- Period whose change of angle per sample is passed. -/
  period : Nat
  /-- Angle to start the sine wave at. -/
  t : StartAngle
deriving DecidableEq, Repr

/-- The tone of a one bit: the call made by `write_byte` for a set bit. -/
def ONE_TONE : WaveCall := { samples := ONE_PERIOD, period := ONE_PERIOD, t := .zero }

/-- The tone of a zero bit: the call made by `write_byte` for a clear bit. -/
def ZERO_TONE : WaveCall := { samples := ZERO_PERIOD, period := ZERO_PERIOD, t := .zero }

/-- The entry tone: the call made by `write_entry_tone`. -/
def ENTRY_TONE : WaveCall :=
  { samples := ENTRY_TONE_DURATION, period := ENTRY_TONE_PERIOD, t := .zero }

/-- First half of the tape-in marker. -/
def TAPE_IN_A : WaveCall :=
  { samples := TAPE_IN_PERIOD / 2, period := TAPE_IN_PERIOD, t := .zero }

/-- Second half of the tape-in marker. -/
def TAPE_IN_B : WaveCall :=
  { samples := ZERO_PERIOD / 2, period := ZERO_PERIOD, t := .pi }

/-- The angle a `StartAngle` stands for. -/
noncomputable def StartAngle.toReal : StartAngle → ℝ
  | .zero => 0.0
  | .pi => Real.pi

/-- Samples written by one call of `write_wave`. -/
noncomputable def WaveCall.run (c : WaveCall) : List Nat :=
  write_wave c.samples (delta_theta c.period) c.t.toReal

/-- Samples written by a sequence of calls of `write_wave`. -/
noncomputable def run_calls (cs : List WaveCall) : List Nat :=
  (cs.map WaveCall.run).flatten

/-- The loop of `write_byte` with `n` iterations left, as calls. -/
def write_byte_loop_calls : Nat → Nat → List WaveCall
  | 0, _ => []
  | n + 1, data =>
    (if data &&& 0x80 ≠ 0 then ONE_TONE else ZERO_TONE)
      :: write_byte_loop_calls n ((data <<< 1) % 256)

/-- Calls of `write_wave` made by `write_byte(out, data)`. -/
def write_byte_calls (data : Nat) : List WaveCall := write_byte_loop_calls 8 data

/-- Calls of `write_wave` made by `write_tape_in_tone(out)`. -/
def write_tape_in_tone_calls : List WaveCall := [TAPE_IN_A, TAPE_IN_B]

/-- Calls of `write_wave` made by `write_entry_tone(out)`. -/
def write_entry_tone_calls : List WaveCall := [ENTRY_TONE]

/-- The `while (1)` loop of `main`, as calls. -/
def main_loop_calls (checksum : Nat) (out : List WaveCall) (infile : InFile) :
    Nat × List WaveCall :=
  let data := to_char (fgetc infile).1
  if _h : feof (fgetc infile).2 = true then (checksum, out)
  else
    main_loop_calls ((checksum ^^^ data) % 256) (out ++ write_byte_calls data) (fgetc infile).2
termination_by infile.bytes.length
decreasing_by
  cases infile with
  | mk bytes eof =>
    cases bytes with
    | nil => simp [fgetc, feof] at _h
    | cons b rest => simp [fgetc]

/-- Calls of `write_wave` made by `main` on the input stream. -/
def main_calls (infile : InFile) : List WaveCall :=
  let out := write_entry_tone_calls ++ write_tape_in_tone_calls
  let r := main_loop_calls 0xFF out infile
  r.2 ++ write_byte_calls r.1

/-- The byte that `main` passes to the last `write_byte`: the checksum when the
loop is left. -/
def main_trailer (infile : InFile) : Nat :=
  (main_loop_calls 0xFF (write_entry_tone_calls ++ write_tape_in_tone_calls) infile).1

/-! ## Notions of the specification -/

/-- Sum, over the 8 bits of `b`, of the duration of the tone of that bit:
`ONE_PERIOD` samples for a set bit, `ZERO_PERIOD` samples for a clear one. -/
def spec_byte_duration (b : Nat) : Nat :=
  ((List.range 8).map (fun k => if b.testBit k then ONE_PERIOD else ZERO_PERIOD)).sum

/-- The bit a receiver reads off one tone by its period, as the specification
words it: the period of a zero bit gives `0`, the period of a one bit gives
`1`, any other period is no bit. -/
def spec_classify (c : WaveCall) : Option Nat :=
  if c.period = ZERO_PERIOD then some 0
  else if c.period = ONE_PERIOD then some 1
  else none

/-- Assembles the bits of a sequence of tones, most-significant first, onto
the bits `acc` already read. -/
def spec_decode_bits : Nat → List WaveCall → Option Nat
  | acc, [] => some acc
  | acc, c :: cs =>
    match spec_classify c with
    | none => none
    | some bit => spec_decode_bits (2 * acc + bit) cs

/-- The byte a receiver decodes from 8 consecutive bit tones. -/
def spec_decode_byte (cs : List WaveCall) : Option Nat :=
  if cs.length = 8 then spec_decode_bits 0 cs else none

/-! ## Argument parsing -/

/-- What a `FILE*` variable of `main` holds after argument parsing: the
standard stream it was initialised with, or the result of a call of `fopen`
on a path; the path `none` is the null pointer `argv[argc]`. -/
inductive Stream where
  | std
  | fopen (path : Option String)
deriving DecidableEq, Repr

/-- The variables `infile` and `outfile` of `main`. -/
structure Files where
  /-- The variable `infile`. -/
  infile : Stream
  /-- The variable `outfile`. -/
  outfile : Stream
deriving DecidableEq, Repr

/-- Outcome of the argument parsing loop of `main`: either the message
`-o requires an argument` is printed and `main` returns 1, or the loop ends
and `main` goes on with the two streams. -/
inductive ParseOutcome where
  | arg_error
  | parsed (files : Files)
deriving DecidableEq, Repr

/-- The loop `for (size_t i = 1; i < argc; i++)` of `main`, from the index `i`
on; `argv` lists `argv[0]` to `argv[argc - 1]`, and `argv[argc]` is the null
pointer. -/
def parse_args_loop (argv : List String) (i : Nat) (files : Files) : ParseOutcome :=
  if h : i < argv.length then
    if argv[i] = "-o" then
      if i + 1 > argv.length then ParseOutcome.arg_error
      else parse_args_loop argv (i + 1 + 1) { files with outfile := Stream.fopen argv[i + 1]? }
    else parse_args_loop argv (i + 1) { files with infile := Stream.fopen (some argv[i]) }
  else ParseOutcome.parsed files
termination_by argv.length - i

/-- Argument parsing of `main`: both streams default to the standard ones. -/
def parse_args (argv : List String) : ParseOutcome :=
  parse_args_loop argv 1 { infile := Stream.std, outfile := Stream.std }

/-! ## The program writing to a file whose writes may fail -/

/-- The output stream: the bytes that reached the file, the number of calls of
`fputc` made on it so far, and its error indicator. -/
structure OutFile where
  /-- Bytes written, in order. -/
  written : List Nat
  /-- Number of calls of `fputc` so far. -/
  calls : Nat
  /-- Error indicator, set by a failed write and never cleared. -/
  error : Bool
deriving DecidableEq, Repr

/-- A freshly opened output stream. -/
def OutFile.opened : OutFile := { written := [], calls := 0, error := false }

/-- The call `fputc(c, out)` on a file where the `k`-th call of `fputc` fails
when `fails k` holds: a failed call writes nothing and sets the error
indicator. -/
def fputc_to (fails : Nat → Bool) (c : Int) (out : OutFile) : OutFile :=
  if fails out.calls then { out with calls := out.calls + 1, error := true }
  else { out with written := out.written ++ [fputc c], calls := out.calls + 1 }

/-- Tests the error indicator of the output stream. -/
def ferror (out : OutFile) : Bool := out.error

/-- The call `write_wave(out, samples, dt, t)` on such a file. -/
noncomputable def write_wave_to (fails : Nat → Bool) : Nat → ℝ → ℝ → OutFile → OutFile
  | 0, _, _, out => out
  | samples + 1, dt, t, out =>
    write_wave_to fails samples dt (t + dt)
      (fputc_to fails (truncate (127.0 * Real.sin t + 127.0)) out)

/-- The loop of `write_byte` with `n` iterations left, on such a file. -/
noncomputable def write_byte_loop_to (fails : Nat → Bool) : Nat → Nat → OutFile → OutFile
  | 0, _, out => out
  | n + 1, data, out =>
    write_byte_loop_to fails n ((data <<< 1) % 256)
      (if data &&& 0x80 ≠ 0 then write_wave_to fails ONE_PERIOD ONE_DELTA_THETA 0.0 out
        else write_wave_to fails ZERO_PERIOD ZERO_DELTA_THETA 0.0 out)

/-- The call `write_byte(out, data)` on such a file. -/
noncomputable def write_byte_to (fails : Nat → Bool) (data : Nat) (out : OutFile) : OutFile :=
  write_byte_loop_to fails 8 data out

/-- The call `write_tape_in_tone(out)` on such a file. -/
noncomputable def write_tape_in_tone_to (fails : Nat → Bool) (out : OutFile) : OutFile :=
  write_wave_to fails (ZERO_PERIOD / 2) ZERO_DELTA_THETA Real.pi
    (write_wave_to fails (TAPE_IN_PERIOD / 2) TAPE_IN_DELTA_THETA 0.0 out)

/-- The call `write_entry_tone(out)` on such a file. -/
noncomputable def write_entry_tone_to (fails : Nat → Bool) (out : OutFile) : OutFile :=
  write_wave_to fails ENTRY_TONE_DURATION ENTRY_TONE_DELTA_THETA 0.0 out

/-- How the `while (1)` loop of `main` ends: through `break`, with the checksum
and the output stream, or through `err(1, ...)` after `ferror(outfile)`. -/
inductive LoopExit where
  | broke (checksum : Nat) (out : OutFile)
  | write_failed (out : OutFile)

/-- The `while (1)` loop of `main` on a file whose writes may fail; reads
succeed. -/
noncomputable def main_loop_to (fails : Nat → Bool) (checksum : Nat) (out : OutFile)
    (infile : InFile) : LoopExit :=
  let data := to_char (fgetc infile).1
  if _h : feof (fgetc infile).2 = true then LoopExit.broke checksum out
  else
    let out1 := write_byte_to fails data out
    if ferror out1 = true then LoopExit.write_failed out1
    else main_loop_to fails ((checksum ^^^ data) % 256) out1 (fgetc infile).2
termination_by infile.bytes.length
decreasing_by
  cases infile with
  | mk bytes eof =>
    cases bytes with
    | nil => simp [fgetc, feof] at _h
    | cons b rest => simp [fgetc]

/-- Exit status of `main` and the output stream when it ends, on a file whose
writes may fail: `err(1, ...)` ends the process with status 1, and `main`
returns 0 after the last `write_byte`. -/
noncomputable def main_exit (fails : Nat → Bool) (infile : InFile) : Nat × OutFile :=
  let out := write_tape_in_tone_to fails (write_entry_tone_to fails OutFile.opened)
  match main_loop_to fails 0xFF out infile with
  | LoopExit.write_failed out1 => (1, out1)
  | LoopExit.broke checksum out1 => (0, write_byte_to fails checksum out1)

/-! ## IEEE double arithmetic

The definitions above take `double` for the real numbers.  The definitions of
this section follow the arithmetic the program runs on: IEEE 754 binary64 with
rounding to nearest, ties to even.  Every finite `double` is an integer
multiple of `2^-1074`, and a finite `double` `x` is stored as the integer
`x * 2^1074`.  Overflow to an infinity, NaN and the sign of zero are not
modelled: the angles of the program stay below `2^13`.  Each operation rounds
on its own, without a fused multiply-add. -/

/-- The quotient `a / b` of two natural numbers, rounded to the nearest
integer, a tie going to the even one. -/
def Binary64.div_round_even (a b : Nat) : Nat :=
  let q := a / b
  let r := a % b
  if 2 * r < b then q
  else if b < 2 * r then q + 1
  else if q % 2 = 0 then q
  else q + 1

/-- The integer `floor (log2 n)` for positive `n`, by repeated halving; the
first argument bounds the number of halvings. -/
def Binary64.log2_loop : Nat → Nat → Nat
  | 0, _ => 0
  | fuel + 1, n => if 2 ≤ n then Binary64.log2_loop fuel (n / 2) + 1 else 0

/-- The integer `floor (log2 n)` for positive `n`. -/
def Binary64.log2 (n : Nat) : Nat := Binary64.log2_loop n n

/-- The integer `floor (log2 (p / q))`, for positive `p` and `q`. -/
def Binary64.floor_log2 (p q : Nat) : Int :=
  let k : Int := (Binary64.log2 p : Int) - (Binary64.log2 q : Int)
  if 0 ≤ k then (if q * 2 ^ k.toNat ≤ p then k else k - 1)
  else (if q ≤ p * 2 ^ (-k).toNat then k else k - 1)

/-- The `double` nearest to `p / q` units of `2^-1074`: 53 significant bits
are kept, and nothing below the unit. -/
def Binary64.round (p q : Nat) : Nat :=
  if p = 0 then 0
  else
    let s := Binary64.floor_log2 p q - 52
    if s ≤ 0 then Binary64.div_round_even p q
    else Binary64.div_round_even p (q * 2 ^ s.toNat) * 2 ^ s.toNat

/-- The sum `a + b` of two doubles: the exact sum, rounded. -/
def Binary64.add (a b : Int) : Int :=
  if a + b < 0 then -(Binary64.round (a + b).natAbs 1 : Int)
  else (Binary64.round (a + b).natAbs 1 : Int)

/-- The product `a * b` of two doubles: the exact product, rounded. -/
def Binary64.mul (a b : Int) : Int :=
  if a * b < 0 then -(Binary64.round (a * b).natAbs (2 ^ 1074) : Int)
  else (Binary64.round (a * b).natAbs (2 ^ 1074) : Int)

/-- The quotient `a / b` of two doubles, `b` not zero: the exact quotient,
rounded. -/
def Binary64.div (a b : Int) : Int :=
  if (a < 0) = (b < 0) then (Binary64.round (a.natAbs * 2 ^ 1074) b.natAbs : Int)
  else -(Binary64.round (a.natAbs * 2 ^ 1074) b.natAbs : Int)

/-- Conversion `(double)n` of a `size_t` below `2^53`, and the value of a
literal such as `127.0`: exact. -/
def Binary64.of_nat (n : Nat) : Int := ((n * 2 ^ 1074 : Nat) : Int)

/-- Conversion `(int)x` of a `double`: the fractional part is discarded. -/
def Binary64.to_int (x : Int) : Int := Int.tdiv x ((2 ^ 1074 : Nat) : Int)

/-- The real number a `double` stands for. -/
noncomputable def Binary64.toReal (x : Int) : ℝ := (x : ℝ) / 2 ^ 1074

/-- The constant `M_PI` of `math.h`, the double `0x400921FB54442D18`, which is
`884279719003555 * 2^-48`. -/
def Binary64.M_PI : Int := ((884279719003555 * 2 ^ 1026 : Nat) : Int)

/-- Change of the angle per sample for a tone of the given period, in double
arithmetic: `M_PI * 2.0 / (double)period`. -/
def Binary64.delta_theta (period : Nat) : Int :=
  Binary64.div (Binary64.mul Binary64.M_PI (Binary64.of_nat 2)) (Binary64.of_nat period)

/-- The constant `ZERO_DELTA_THETA` in double arithmetic. -/
def Binary64.ZERO_DELTA_THETA : Int := Binary64.delta_theta ZERO_PERIOD

/-- Samples written by `write_wave(out, samples, dt, t)` in double arithmetic;
`sin` is the sine of the C library, which the source does not define. -/
def Binary64.write_wave (sin : Int → Int) : Nat → Int → Int → List Nat
  | 0, _, _ => []
  | samples + 1, dt, t =>
    fputc (Binary64.to_int
        (Binary64.add (Binary64.mul (Binary64.of_nat 127) (sin t)) (Binary64.of_nat 127)))
      :: Binary64.write_wave sin samples dt (Binary64.add t dt)

/-- Value of the variable `t` of `write_wave` after `i` iterations, in double
arithmetic. -/
def Binary64.write_wave_t : Nat → Int → Int → Int
  | 0, _, t => t
  | i + 1, dt, t => Binary64.write_wave_t i dt (Binary64.add t dt)

/-! ## Helper lemmas -/

theorem to_char_fgetc_byte (b : Nat) : to_char (((b % 256 : Nat) : Int)) = b % 256 := by
  unfold to_char
  have h : (((b % 256 : Nat) : Int)) % 256 = ((b % 256 : Nat) : Int) := by
    apply Int.emod_eq_of_lt
    · exact Int.ofNat_nonneg _
    · have : b % 256 < 256 := Nat.mod_lt _ (by decide)
      exact_mod_cast this
  rw [h]
  exact Int.toNat_ofNat _

theorem xor_lt_256 {a b : Nat} (ha : a < 256) (hb : b < 256) : a ^^^ b < 256 :=
  Nat.xor_lt_two_pow (n := 8) ha hb

/-- The checksum of `main` after the bytes `bs` have been read, starting from
`checksum`. -/
theorem main_loop_opened (bs : List Nat) (checksum : Nat) (out : List Nat) :
    main_loop checksum out (InFile.opened bs)
      = (bs.foldl (fun c b => (c ^^^ (b % 256)) % 256) checksum,
         out ++ (bs.map (fun b => write_byte (b % 256))).flatten) := by
  induction bs generalizing checksum out with
  | nil =>
    rw [main_loop]
    simp [InFile.opened, fgetc, feof]
  | cons b rest ih =>
    rw [main_loop]
    have h2 : (fgetc (InFile.opened (b :: rest))).2 = InFile.opened rest := by
      simp [InFile.opened, fgetc]
    have h1 : (fgetc (InFile.opened (b :: rest))).1 = ((b % 256 : Nat) : Int) := by
      simp [InFile.opened, fgetc]
    rw [h2, h1, to_char_fgetc_byte]
    have h3 : feof (InFile.opened rest) = false := rfl
    simp only [h3, Bool.false_eq_true, dite_false]
    rw [ih]
    simp [List.append_assoc]

theorem main_loop_calls_opened (bs : List Nat) (checksum : Nat) (out : List WaveCall) :
    main_loop_calls checksum out (InFile.opened bs)
      = (bs.foldl (fun c b => (c ^^^ (b % 256)) % 256) checksum,
         out ++ (bs.map (fun b => write_byte_calls (b % 256))).flatten) := by
  induction bs generalizing checksum out with
  | nil =>
    rw [main_loop_calls]
    simp [InFile.opened, fgetc, feof]
  | cons b rest ih =>
    rw [main_loop_calls]
    have h2 : (fgetc (InFile.opened (b :: rest))).2 = InFile.opened rest := by
      simp [InFile.opened, fgetc]
    have h1 : (fgetc (InFile.opened (b :: rest))).1 = ((b % 256 : Nat) : Int) := by
      simp [InFile.opened, fgetc]
    rw [h2, h1, to_char_fgetc_byte]
    have h3 : feof (InFile.opened rest) = false := rfl
    simp only [h3, Bool.false_eq_true, dite_false]
    rw [ih]
    simp [List.append_assoc]

/-- On bytes, the checksum update of the loop is a plain exclusive or. -/
theorem foldl_checksum_bytes (bs : List Nat) (hbs : ∀ b ∈ bs, b < 256) (c : Nat)
    (hc : c < 256) :
    bs.foldl (fun c b => (c ^^^ (b % 256)) % 256) c = bs.foldl (fun c b => c ^^^ b) c := by
  induction bs generalizing c with
  | nil => rfl
  | cons b rest ih =>
    have hb : b < 256 := hbs b (List.mem_cons_self _ _)
    have hx : c ^^^ b < 256 := xor_lt_256 hc hb
    simp only [List.foldl_cons, Nat.mod_eq_of_lt hb, Nat.mod_eq_of_lt hx]
    exact ih (fun x hx => hbs x (List.mem_cons_of_mem _ hx)) _ hx

theorem foldl_xor_lt_256 (bs : List Nat) (hbs : ∀ b ∈ bs, b < 256) (c : Nat)
    (hc : c < 256) : bs.foldl (fun c b => c ^^^ b) c < 256 := by
  induction bs generalizing c with
  | nil => exact hc
  | cons b rest ih =>
    have hb : b < 256 := hbs b (List.mem_cons_self _ _)
    exact ih (fun x hx => hbs x (List.mem_cons_of_mem _ hx)) _ (xor_lt_256 hc hb)

theorem map_mod_bytes {α : Type} (f : Nat → α) (bs : List Nat) (hbs : ∀ b ∈ bs, b < 256) :
    bs.map (fun b => f (b % 256)) = bs.map f := by
  apply List.map_congr_left
  intro b hb
  rw [Nat.mod_eq_of_lt (hbs b hb)]

theorem write_wave_length (n : Nat) (dt t : ℝ) : (write_wave n dt t).length = n := by
  induction n generalizing t with
  | zero => rfl
  | succ n ih => simp [write_wave, ih]

theorem run_calls_append (xs ys : List WaveCall) :
    run_calls (xs ++ ys) = run_calls xs ++ run_calls ys := by
  simp [run_calls]

theorem run_calls_cons (c : WaveCall) (cs : List WaveCall) :
    run_calls (c :: cs) = c.run ++ run_calls cs := by
  simp [run_calls]

theorem ONE_TONE_run : ONE_TONE.run = write_wave ONE_PERIOD ONE_DELTA_THETA 0.0 := rfl

theorem ZERO_TONE_run : ZERO_TONE.run = write_wave ZERO_PERIOD ZERO_DELTA_THETA 0.0 := rfl

theorem write_byte_loop_eq_run (n data : Nat) :
    write_byte_loop n data = run_calls (write_byte_loop_calls n data) := by
  induction n generalizing data with
  | zero => rfl
  | succ n ih =>
    rw [write_byte_loop, write_byte_loop_calls, run_calls_cons, ih]
    by_cases h : data &&& 0x80 ≠ 0
    · rw [if_pos h, if_pos h, ONE_TONE_run]
    · rw [if_neg h, if_neg h, ZERO_TONE_run]

theorem write_byte_eq_run (data : Nat) : write_byte data = run_calls (write_byte_calls data) :=
  write_byte_loop_eq_run 8 data

theorem write_entry_tone_eq_run : write_entry_tone = run_calls write_entry_tone_calls := by
  simp [run_calls, write_entry_tone_calls, write_entry_tone, WaveCall.run, ENTRY_TONE,
    ENTRY_TONE_DELTA_THETA, StartAngle.toReal]

theorem write_tape_in_tone_eq_run :
    write_tape_in_tone = run_calls write_tape_in_tone_calls := by
  simp [run_calls, write_tape_in_tone_calls, write_tape_in_tone, WaveCall.run, TAPE_IN_A,
    TAPE_IN_B, TAPE_IN_DELTA_THETA, ZERO_DELTA_THETA, StartAngle.toReal]

theorem run_calls_flatten (L : List (List WaveCall)) :
    run_calls L.flatten = (L.map run_calls).flatten := by
  induction L with
  | nil => rfl
  | cons l L ih => simp [run_calls_append, ih]

/-- The samples written by `main` are those of the calls recorded by
`main_calls`. -/
theorem main_eq_run (bs : List Nat) :
    main (InFile.opened bs) = run_calls (main_calls (InFile.opened bs)) := by
  simp only [main, main_calls, main_loop_opened, main_loop_calls_opened, run_calls_append,
    write_entry_tone_eq_run, write_tape_in_tone_eq_run, write_byte_eq_run, run_calls_flatten,
    List.map_map]
  rfl

theorem write_byte_loop_calls_tones (n data : Nat) :
    ∀ c ∈ write_byte_loop_calls n data, c = ONE_TONE ∨ c = ZERO_TONE := by
  induction n generalizing data with
  | zero => intro c hc; simp [write_byte_loop_calls] at hc
  | succ n ih =>
    intro c hc
    rw [write_byte_loop_calls, List.mem_cons] at hc
    rcases hc with hc | hc
    · by_cases h : data &&& 0x80 ≠ 0
      · rw [if_pos h] at hc; exact Or.inl hc
      · rw [if_neg h] at hc; exact Or.inr hc
    · exact ih _ c hc

theorem count_payload_calls (c : WaveCall) (h1 : c ≠ ONE_TONE) (h0 : c ≠ ZERO_TONE)
    (bs : List Nat) : ((bs.map write_byte_calls).flatten).count c = 0 := by
  rw [List.count_eq_zero]
  intro hc
  rw [List.mem_flatten] at hc
  obtain ⟨l, hl, hcl⟩ := hc
  rw [List.mem_map] at hl
  obtain ⟨b, _, rfl⟩ := hl
  rcases write_byte_loop_calls_tones 8 b c hcl with h | h
  · exact h1 h
  · exact h0 h

theorem count_write_byte_calls (c : WaveCall) (h1 : c ≠ ONE_TONE) (h0 : c ≠ ZERO_TONE)
    (b : Nat) : (write_byte_calls b).count c = 0 := by
  rw [List.count_eq_zero]
  intro hc
  rcases write_byte_loop_calls_tones 8 b c hc with h | h
  · exact h1 h
  · exact h0 h

theorem main_calls_opened (bs : List Nat) (hbs : ∀ b ∈ bs, b < 256) :
    main_calls (InFile.opened bs)
      = [ENTRY_TONE] ++ [TAPE_IN_A, TAPE_IN_B] ++ (bs.map write_byte_calls).flatten
          ++ write_byte_calls (bs.foldl (fun c b => c ^^^ b) 0xFF) := by
  simp only [main_calls, main_loop_calls_opened, map_mod_bytes write_byte_calls bs hbs,
    foldl_checksum_bytes bs hbs 0xFF (by decide)]
  rfl

theorem main_opened (bs : List Nat) (hbs : ∀ b ∈ bs, b < 256) :
    main (InFile.opened bs)
      = write_entry_tone ++ write_tape_in_tone ++ (bs.map write_byte).flatten
          ++ write_byte (bs.foldl (fun c b => c ^^^ b) 0xFF) := by
  simp only [main, main_loop_opened, map_mod_bytes write_byte bs hbs,
    foldl_checksum_bytes bs hbs 0xFF (by decide)]

theorem main_trailer_opened (bs : List Nat) (hbs : ∀ b ∈ bs, b < 256) :
    main_trailer (InFile.opened bs) = bs.foldl (fun c b => c ^^^ b) 0xFF := by
  simp only [main_trailer, main_loop_calls_opened, foldl_checksum_bytes bs hbs 0xFF (by decide)]

theorem main_loop_checksum_opened (bs : List Nat) (hbs : ∀ b ∈ bs, b < 256) (out : List Nat) :
    (main_loop 0xFF out (InFile.opened bs)).1 = bs.foldl (fun c b => c ^^^ b) 0xFF := by
  simp only [main_loop_opened, foldl_checksum_bytes bs hbs 0xFF (by decide)]

/-! ## The framing of the output -/

/-- C1: for every input byte sequence (the empty one included) the samples
written by `main` are, in this order and with nothing in between, the entry
tone, the tape-in marker, the samples of `write_byte` for each input byte in
input order, and the samples of `write_byte` for the checksum with which the
loop is left.  The same holds for the sequence of `write_wave` calls, in which
the entry tone and each half of the tape-in marker occur exactly once. -/
theorem main_output_framing (bs : List Nat) (hbs : ∀ b ∈ bs, b < 256) :
    main (InFile.opened bs)
        = write_entry_tone ++ write_tape_in_tone ++ (bs.map write_byte).flatten
            ++ write_byte
                (main_loop 0xFF (write_entry_tone ++ write_tape_in_tone) (InFile.opened bs)).1
      ∧ main_calls (InFile.opened bs)
        = write_entry_tone_calls ++ write_tape_in_tone_calls
            ++ (bs.map write_byte_calls).flatten
            ++ write_byte_calls (main_trailer (InFile.opened bs))
      ∧ main (InFile.opened bs) = run_calls (main_calls (InFile.opened bs))
      ∧ (main_calls (InFile.opened bs)).count ENTRY_TONE = 1
      ∧ (main_calls (InFile.opened bs)).count TAPE_IN_A = 1
      ∧ (main_calls (InFile.opened bs)).count TAPE_IN_B = 1 := by
  have hcalls := main_calls_opened bs hbs
  refine ⟨?_, ?_, main_eq_run bs, ?_, ?_, ?_⟩
  · rw [main_loop_checksum_opened bs hbs]
    exact main_opened bs hbs
  · rw [main_trailer_opened bs hbs]
    exact hcalls
  · rw [hcalls]
    simp only [List.count_append, count_payload_calls ENTRY_TONE (by decide) (by decide),
      count_write_byte_calls ENTRY_TONE (by decide) (by decide)]
    decide
  · rw [hcalls]
    simp only [List.count_append, count_payload_calls TAPE_IN_A (by decide) (by decide),
      count_write_byte_calls TAPE_IN_A (by decide) (by decide)]
    decide
  · rw [hcalls]
    simp only [List.count_append, count_payload_calls TAPE_IN_B (by decide) (by decide),
      count_write_byte_calls TAPE_IN_B (by decide) (by decide)]
    decide

/-- Witness of `main_output_framing` on the two-byte input `0x41 0xFF`. -/
theorem main_output_framing_witness :
    (∀ b ∈ [0x41, 0xFF], b < 256)
      ∧ main (InFile.opened [0x41, 0xFF])
        = write_entry_tone ++ write_tape_in_tone ++ ([0x41, 0xFF].map write_byte).flatten
            ++ write_byte
                (main_loop 0xFF (write_entry_tone ++ write_tape_in_tone)
                  (InFile.opened [0x41, 0xFF])).1 :=
  ⟨by decide, (main_output_framing [0x41, 0xFF] (by decide)).1⟩

/-- C2: for every input byte sequence `b1..bn` the byte passed to the last
`write_byte` is `0xFF XOR b1 XOR ... XOR bn`, an 8-bit value; for the empty
input it is `0xFF`. -/
theorem trailer_is_xor_checksum (bs : List Nat) (hbs : ∀ b ∈ bs, b < 256) :
    main_trailer (InFile.opened bs) = bs.foldl (fun c b => c ^^^ b) 0xFF
      ∧ (main_loop 0xFF (write_entry_tone ++ write_tape_in_tone) (InFile.opened bs)).1
          = bs.foldl (fun c b => c ^^^ b) 0xFF
      ∧ main_trailer (InFile.opened bs) < 256
      ∧ main_trailer (InFile.opened []) = 0xFF
      ∧ main (InFile.opened bs)
          = write_entry_tone ++ write_tape_in_tone ++ (bs.map write_byte).flatten
              ++ write_byte (bs.foldl (fun c b => c ^^^ b) 0xFF) := by
  refine ⟨main_trailer_opened bs hbs, main_loop_checksum_opened bs hbs _, ?_, ?_,
    main_opened bs hbs⟩
  · rw [main_trailer_opened bs hbs]
    exact foldl_xor_lt_256 bs hbs 0xFF (by decide)
  · rw [main_trailer_opened [] (by simp)]
    rfl

/-- Witness of `trailer_is_xor_checksum` on the input `0x12 0x34`, whose
trailer is `0xFF XOR 0x12 XOR 0x34 = 0xD9`. -/
theorem trailer_is_xor_checksum_witness :
    (∀ b ∈ [0x12, 0x34], b < 256) ∧ main_trailer (InFile.opened [0x12, 0x34]) = 0xD9 :=
  ⟨by decide, (trailer_is_xor_checksum [0x12, 0x34] (by decide)).1⟩

set_option maxRecDepth 100000 in
theorem write_byte_calls_bits :
    ∀ b, b < 256 → write_byte_calls b
      = (List.range 8).map (fun k => if b.testBit (7 - k) then ONE_TONE else ZERO_TONE) := by
  decide

set_option maxRecDepth 100000 in
theorem write_byte_calls_duration :
    ∀ b, b < 256 → ((write_byte_calls b).map WaveCall.samples).sum = spec_byte_duration b := by
  decide

set_option maxRecDepth 100000 in
theorem spec_decode_write_byte_calls :
    ∀ b, b < 256 → spec_decode_byte (write_byte_calls b) = some b := by
  decide

theorem run_calls_length (cs : List WaveCall) :
    (run_calls cs).length = (cs.map WaveCall.samples).sum := by
  induction cs with
  | nil => rfl
  | cons c cs ih =>
    rw [run_calls_cons, List.length_append, ih, List.map_cons, List.sum_cons]
    unfold WaveCall.run
    rw [write_wave_length]

theorem write_byte_length (b : Nat) (hb : b < 256) :
    (write_byte b).length = spec_byte_duration b := by
  rw [write_byte_eq_run, run_calls_length, write_byte_calls_duration b hb]

theorem payload_length (bs : List Nat) (hbs : ∀ b ∈ bs, b < 256) :
    ((bs.map write_byte).flatten).length = (bs.map spec_byte_duration).sum := by
  induction bs with
  | nil => rfl
  | cons b rest ih =>
    rw [List.map_cons, List.flatten_cons, List.length_append, List.map_cons, List.sum_cons,
      write_byte_length b (hbs b (List.mem_cons_self _ _)),
      ih (fun x hx => hbs x (List.mem_cons_of_mem _ hx))]

theorem main_length (bs : List Nat) (hbs : ∀ b ∈ bs, b < 256) :
    (main (InFile.opened bs)).length
      = ENTRY_TONE_DURATION + (TAPE_IN_PERIOD / 2 + ZERO_PERIOD / 2)
          + (bs.map spec_byte_duration).sum
          + spec_byte_duration (bs.foldl (fun c b => c ^^^ b) 0xFF) := by
  have h1 : write_entry_tone.length = ENTRY_TONE_DURATION := write_wave_length _ _ _
  have h2 : write_tape_in_tone.length = TAPE_IN_PERIOD / 2 + ZERO_PERIOD / 2 := by
    unfold write_tape_in_tone
    rw [List.length_append, write_wave_length, write_wave_length]
  rw [main_opened bs hbs, List.length_append, List.length_append, List.length_append, h1, h2,
    payload_length bs hbs, write_byte_length _ (foldl_xor_lt_256 bs hbs 0xFF (by decide))]

theorem flatten_map_run (cs : List WaveCall) :
    run_calls cs = (cs.map WaveCall.run).flatten := rfl

/-! ## Bytes as tones -/

/-- C3: for every byte `b` (all 256 values, those with the top bit set
included) `write_byte` makes exactly 8 calls of `write_wave`, and for
`k = 0..7` the `k`-th is the tone of a one bit if bit `7 - k` of `b` is set
and the tone of a zero bit otherwise: bits are sent most-significant first.
The samples written are those of these 8 tones, concatenated. -/
theorem write_byte_msb_first (b : Nat) (hb : b < 256) :
    (write_byte_calls b).length = 8
      ∧ (∀ k, k < 8 → (write_byte_calls b)[k]?
          = some (if b.testBit (7 - k) then ONE_TONE else ZERO_TONE))
      ∧ write_byte b
          = ((List.range 8).map
              (fun k => if b.testBit (7 - k) then write_wave ONE_PERIOD ONE_DELTA_THETA 0.0
                else write_wave ZERO_PERIOD ZERO_DELTA_THETA 0.0)).flatten := by
  have h := write_byte_calls_bits b hb
  refine ⟨?_, ?_, ?_⟩
  · rw [h]; simp
  · intro k hk
    rw [h, List.getElem?_map, List.getElem?_range hk]
    rfl
  · rw [write_byte_eq_run, h, flatten_map_run, List.map_map]
    congr 1
    apply List.map_congr_left
    intro k _
    simp only [Function.comp]
    by_cases hbit : b.testBit (7 - k) = true
    · rw [if_pos hbit, if_pos hbit, ONE_TONE_run]
    · rw [if_neg hbit, if_neg hbit, ZERO_TONE_run]

/-- Witness of `write_byte_msb_first` on the byte `0xA5`, whose top bit is
set. -/
theorem write_byte_msb_first_witness :
    0xA5 < 256
      ∧ (∀ k, k < 8 → (write_byte_calls 0xA5)[k]?
          = some (if Nat.testBit 0xA5 (7 - k) then ONE_TONE else ZERO_TONE)) :=
  ⟨by decide, (write_byte_msb_first 0xA5 (by decide)).2.1⟩

/-- C7: for every byte `b`, decoding the 8 consecutive bit tones that
`write_byte` produces for `b`, by classifying each tone by its period and
assembling the bits most-significant first, recovers `b`. -/
theorem decode_write_byte (b : Nat) (hb : b < 256) :
    spec_decode_byte (write_byte_calls b) = some b
      ∧ write_byte b = run_calls (write_byte_calls b) :=
  ⟨spec_decode_write_byte_calls b hb, write_byte_eq_run b⟩

/-- Witness of `decode_write_byte` on the byte `0xC3`. -/
theorem decode_write_byte_witness :
    0xC3 < 256 ∧ spec_decode_byte (write_byte_calls 0xC3) = some 0xC3 :=
  ⟨by decide, (decode_write_byte 0xC3 (by decide)).1⟩

/-! ## Sample counts -/

/-- C5: for every input byte sequence the number of samples written by `main`
is `ENTRY_TONE_DURATION`, plus the durations of the two halves of the tape-in
marker, plus, for every input byte, the sum over its 8 bits of the duration of
the tone of that bit (`ONE_PERIOD` for a set bit, `ZERO_PERIOD` for a clear
one), plus the same sum for the trailing checksum byte. -/
theorem main_sample_count (bs : List Nat) (hbs : ∀ b ∈ bs, b < 256) :
    (main (InFile.opened bs)).length
      = ENTRY_TONE_DURATION + (TAPE_IN_PERIOD / 2 + ZERO_PERIOD / 2)
          + (bs.map spec_byte_duration).sum
          + spec_byte_duration (main_trailer (InFile.opened bs)) := by
  rw [main_trailer_opened bs hbs]
  exact main_length bs hbs

/-- Witness of `main_sample_count` on the input `0x41 0xFF`. -/
theorem main_sample_count_witness :
    (∀ b ∈ [0x41, 0xFF], b < 256)
      ∧ (main (InFile.opened [0x41, 0xFF])).length
          = ENTRY_TONE_DURATION + (TAPE_IN_PERIOD / 2 + ZERO_PERIOD / 2)
              + ([0x41, 0xFF].map spec_byte_duration).sum
              + spec_byte_duration (main_trailer (InFile.opened [0x41, 0xFF])) :=
  ⟨by decide, main_sample_count [0x41, 0xFF] (by decide)⟩

theorem run_calls_replicate (n : Nat) (c : WaveCall) :
    run_calls (List.replicate n c) = (List.replicate n c.run).flatten := by
  rw [flatten_map_run, List.map_replicate]

theorem main_length_zero_byte : (main (InFile.opened [0x00])).length = 47293 := by
  rw [main_length [0x00] (by decide)]
  decide

/-! ## Concrete inputs -/

/-- C8: for the empty input the output is exactly the entry tone, then the
tape-in marker, then the 8 tones of the single trailer byte `0xFF` (eight
one-bit tones), and no payload tone. -/
theorem empty_input_output :
    main_trailer (InFile.opened []) = 0xFF
      ∧ main_calls (InFile.opened [])
          = [ENTRY_TONE, TAPE_IN_A, TAPE_IN_B] ++ List.replicate 8 ONE_TONE
      ∧ main (InFile.opened [])
          = write_entry_tone ++ write_tape_in_tone
              ++ (List.replicate 8 (write_wave ONE_PERIOD ONE_DELTA_THETA 0.0)).flatten := by
  have hb : write_byte_calls 0xFF = List.replicate 8 ONE_TONE := by decide
  refine ⟨?_, ?_, ?_⟩
  · rw [main_trailer_opened [] (by simp)]
    rfl
  · rw [main_calls_opened [] (by simp)]
    simp only [List.map_nil, List.flatten_nil, List.append_nil, List.foldl_nil, hb]
    rfl
  · rw [main_opened [] (by simp)]
    simp only [List.map_nil, List.flatten_nil, List.append_nil, List.foldl_nil]
    rw [write_byte_eq_run, hb, run_calls_replicate, ONE_TONE_run]

/-- C9, as the program behaves: for the input consisting of the single byte
`0x00` the number of samples written is
`46746 + (8 + 11) + 8 * 22 + 8 * 44 = 47293`; the first half of the tape-in
marker has `TAPE_IN_PERIOD / 2 = 17 / 2 = 8` samples. -/
theorem zero_byte_sample_count :
    (main (InFile.opened [0x00])).length = 46746 + (8 + 11) + 8 * 22 + 8 * 44
      ∧ 46746 + (8 + 11) + 8 * 22 + 8 * 44 = 47293
      ∧ TAPE_IN_PERIOD = 17
      ∧ (write_wave (TAPE_IN_PERIOD / 2) TAPE_IN_DELTA_THETA 0.0).length = 8
      ∧ main_calls (InFile.opened [0x00])
          = [ENTRY_TONE, TAPE_IN_A, TAPE_IN_B] ++ List.replicate 8 ZERO_TONE
              ++ List.replicate 8 ONE_TONE := by
  refine ⟨main_length_zero_byte, by decide, by decide, ?_, ?_⟩
  · rw [write_wave_length]
    decide
  · rw [main_calls_opened [0x00] (by decide)]
    decide

/-- C9, as the specification states it, fails: the number of samples written
for the input consisting of the single byte `0x00` is not `47294`. -/
theorem zero_byte_sample_count_not_47294 :
    (main (InFile.opened [0x00])).length ≠ 47294 := by
  rw [main_length_zero_byte]
  decide

/-- C10: for the input consisting of the single byte `0xFF`, the byte read has
the same `char` value as `EOF` but the end-of-file indicator is clear, so it is
processed as data; the checksum is `0xFF XOR 0xFF = 0x00`, and the output is
the entry tone, the tape-in marker, eight one-bit tones, then eight zero-bit
tones. -/
theorem ff_byte_output :
    (fgetc (InFile.opened [0xFF])).1 = 0xFF
      ∧ to_char (fgetc (InFile.opened [0xFF])).1 = to_char EOF
      ∧ feof (fgetc (InFile.opened [0xFF])).2 = false
      ∧ main_trailer (InFile.opened [0xFF]) = 0x00
      ∧ main_calls (InFile.opened [0xFF])
          = [ENTRY_TONE, TAPE_IN_A, TAPE_IN_B] ++ List.replicate 8 ONE_TONE
              ++ List.replicate 8 ZERO_TONE
      ∧ main (InFile.opened [0xFF])
          = write_entry_tone ++ write_tape_in_tone
              ++ (List.replicate 8 (write_wave ONE_PERIOD ONE_DELTA_THETA 0.0)).flatten
              ++ (List.replicate 8 (write_wave ZERO_PERIOD ZERO_DELTA_THETA 0.0)).flatten := by
  have h1 : write_byte_calls 0xFF = List.replicate 8 ONE_TONE := by decide
  have h0 : write_byte_calls 0x00 = List.replicate 8 ZERO_TONE := by decide
  have hx : List.foldl (fun c b => c ^^^ b) 0xFF [0xFF] = 0x00 := by decide
  refine ⟨by decide, by decide, by decide, ?_, ?_, ?_⟩
  · rw [main_trailer_opened [0xFF] (by decide), hx]
  · rw [main_calls_opened [0xFF] (by decide), hx]
    decide
  · rw [main_opened [0xFF] (by decide), hx]
    simp only [List.map_cons, List.map_nil, List.flatten_cons, List.flatten_nil,
      List.append_nil]
    rw [write_byte_eq_run 0xFF, write_byte_eq_run 0x00, h1, h0, run_calls_replicate,
      run_calls_replicate, ONE_TONE_run, ZERO_TONE_run]

theorem round_ratio (n z : Nat) (h1 : 2 * z * 1000000 ≤ 2 * n + 1000000)
    (h2 : 2 * n + 1000000 < 2 * (z + 1) * 1000000) :
    round ((n : ℝ) / 1000000) = (z : Int) := by
  rw [round_eq, Int.floor_eq_iff]
  have h1r : ((2 * z * 1000000 : Nat) : ℝ) ≤ ((2 * n + 1000000 : Nat) : ℝ) := by
    exact_mod_cast h1
  have h2r : ((2 * n + 1000000 : Nat) : ℝ) < ((2 * (z + 1) * 1000000 : Nat) : ℝ) := by
    exact_mod_cast h2
  push_cast at h1r h2r ⊢
  constructor
  · linarith
  · linarith

theorem period_rounds (usec z : Nat) (h1 : 2 * z * 1000000 ≤ 2 * (44100 * usec) + 1000000)
    (h2 : 2 * (44100 * usec) + 1000000 < 2 * (z + 1) * 1000000) :
    round ((44100 : ℝ) * ((usec : ℝ) * 1e-6)) = (z : Int) := by
  have h := round_ratio (44100 * usec) z h1 h2
  have e : (44100 : ℝ) * ((usec : ℝ) * 1e-6) = ((44100 * usec : Nat) : ℝ) / 1000000 := by
    push_cast
    norm_num
    ring
  rw [e]
  exact h

theorem write_byte_loop_calls_length (n data : Nat) :
    (write_byte_loop_calls n data).length = n := by
  induction n generalizing data with
  | zero => rfl
  | succ n ih => rw [write_byte_loop_calls, List.length_cons, ih]

theorem write_byte_calls_getElem? (data k : Nat) (hk : k < 8) :
    (write_byte_calls data)[k]? = some ONE_TONE
      ∨ (write_byte_calls data)[k]? = some ZERO_TONE := by
  have hlen : k < (write_byte_calls data).length := by
    unfold write_byte_calls
    rw [write_byte_loop_calls_length]
    exact hk
  rw [List.getElem?_eq_getElem hlen]
  rcases write_byte_loop_calls_tones 8 data _ (List.getElem_mem hlen) with h | h
  · exact Or.inl (congrArg some h)
  · exact Or.inr (congrArg some h)

theorem floor_ratio (n z : Nat) (h1 : z * 1000000 ≤ n) (h2 : n < (z + 1) * 1000000) :
    ⌊(n : ℝ) / 1000000⌋ = (z : Int) := by
  rw [Int.floor_eq_iff]
  have h1r : ((z * 1000000 : Nat) : ℝ) ≤ (n : ℝ) := by exact_mod_cast h1
  have h2r : (n : ℝ) < (((z + 1) * 1000000 : Nat) : ℝ) := by exact_mod_cast h2
  push_cast at h1r h2r ⊢
  constructor
  · linarith
  · linarith

theorem write_tape_in_tone_length : write_tape_in_tone.length = 19 := by
  unfold write_tape_in_tone
  rw [List.length_append, write_wave_length, write_wave_length]
  decide

/-! ## The tones -/

/-- C11: the entry tone is 46746 samples of a wave of period 57 starting at
angle 0; the tone of a zero bit is one period of 22 samples starting at angle
0; the tone of a one bit is one period of 44 samples starting at angle 0; each
is written with a change of angle of `2 * pi / period` per sample, and the
three periods are `round (44100 * 1300e-6)`, `round (44100 * 500e-6)` and
`round (44100 * 1000e-6)`. -/
theorem bit_and_entry_tones :
    ENTRY_TONE = { samples := 46746, period := 57, t := StartAngle.zero }
      ∧ ZERO_TONE = { samples := 22, period := 22, t := StartAngle.zero }
      ∧ ONE_TONE = { samples := 44, period := 44, t := StartAngle.zero }
      ∧ write_entry_tone = write_wave 46746 (2 * Real.pi / 57) 0
      ∧ ZERO_TONE.run = write_wave 22 (2 * Real.pi / 22) 0
      ∧ ONE_TONE.run = write_wave 44 (2 * Real.pi / 44) 0
      ∧ (∀ data k, k < 8 → (write_byte_calls data)[k]? = some ONE_TONE
            ∨ (write_byte_calls data)[k]? = some ZERO_TONE)
      ∧ (ENTRY_TONE_PERIOD : Int) = round ((44100 : ℝ) * (1300 * 1e-6))
      ∧ (ZERO_PERIOD : Int) = round ((44100 : ℝ) * (500 * 1e-6))
      ∧ (ONE_PERIOD : Int) = round ((44100 : ℝ) * (1000 * 1e-6)) := by
  have hE : ENTRY_TONE_DURATION = 46746 := by decide
  have hEP : ENTRY_TONE_PERIOD = 57 := by decide
  have hZ : ZERO_PERIOD = 22 := by decide
  have hO : ONE_PERIOD = 44 := by decide
  refine ⟨by decide, by decide, by decide, ?_, ?_, ?_, ?_, ?_, ?_, ?_⟩
  · simp only [write_entry_tone, ENTRY_TONE_DELTA_THETA, delta_theta, hE, hEP]
    norm_num
    ring_nf
  · simp only [ZERO_TONE_run, ZERO_DELTA_THETA, delta_theta, hZ]
    norm_num
    ring_nf
  · simp only [ONE_TONE_run, ONE_DELTA_THETA, delta_theta, hO]
    norm_num
    ring_nf
  · intro data k hk
    exact write_byte_calls_getElem? data k hk
  · rw [hEP]
    have := period_rounds 1300 57 (by decide) (by decide)
    push_cast at this
    exact this.symm
  · rw [hZ]
    have := period_rounds 500 22 (by decide) (by decide)
    push_cast at this
    exact this.symm
  · rw [hO]
    have := period_rounds 1000 44 (by decide) (by decide)
    push_cast at this
    exact this.symm

/-- C12, as the program behaves: the tape-in marker is written as two
back-to-back segments; the first is 8 samples, half of the period of 17
samples that the conversion of `44100 * 400e-6 = 17.64` to `size_t` gives,
with a change of angle of `2 * pi / 17` per sample and starting at angle 0;
the second is 11 samples, half of a period of 22 samples, with a change of
angle of `2 * pi / 22` per sample and starting at angle `pi`; the marker is 19
samples in total. -/
theorem tape_in_marker :
    write_tape_in_tone_calls = [TAPE_IN_A, TAPE_IN_B]
      ∧ TAPE_IN_A = { samples := 8, period := 17, t := StartAngle.zero }
      ∧ TAPE_IN_B = { samples := 11, period := 22, t := StartAngle.pi }
      ∧ write_tape_in_tone
          = write_wave 8 (2 * Real.pi / 17) 0 ++ write_wave 11 (2 * Real.pi / 22) Real.pi
      ∧ write_tape_in_tone.length = 19
      ∧ (TAPE_IN_PERIOD : Int) = ⌊(44100 : ℝ) * (400 * 1e-6)⌋
      ∧ TAPE_IN_PERIOD / 2 = 8
      ∧ ZERO_PERIOD / 2 = 11 := by
  have hT : TAPE_IN_PERIOD = 17 := by decide
  have hZ : ZERO_PERIOD = 22 := by decide
  refine ⟨rfl, by decide, by decide, ?_, write_tape_in_tone_length, ?_, by decide, by decide⟩
  · simp only [write_tape_in_tone, TAPE_IN_DELTA_THETA, ZERO_DELTA_THETA, delta_theta, hT, hZ]
    norm_num
    ring_nf
  · rw [hT]
    have h := floor_ratio (44100 * 400) 17 (by decide) (by decide)
    have e : (44100 : ℝ) * (400 * 1e-6) = ((44100 * 400 : Nat) : ℝ) / 1000000 := by
      push_cast
      norm_num
    rw [e]
    exact h.symm

/-- C12, as the specification states it, fails: the period of the tape-in tone
is not `round (44100 * 400e-6) = 18`, its first half is not 9 samples, and the
marker is not 20 samples long. -/
theorem tape_in_marker_not_20 :
    round ((44100 : ℝ) * (400 * 1e-6)) = 18
      ∧ TAPE_IN_PERIOD ≠ 18
      ∧ TAPE_IN_A ≠ { samples := 9, period := 18, t := StartAngle.zero }
      ∧ write_tape_in_tone.length ≠ 20 := by
  refine ⟨?_, by decide, by decide, ?_⟩
  · have := period_rounds 400 18 (by decide) (by decide)
    push_cast at this
    exact this
  · rw [write_tape_in_tone_length]
    decide

theorem foldl_xor_start (bs : List Nat) (c : Nat) :
    bs.foldl (fun c b => c ^^^ b) c = c ^^^ bs.foldl (fun c b => c ^^^ b) 0 := by
  induction bs generalizing c with
  | nil => simp
  | cons b rest ih =>
    rw [List.foldl_cons, List.foldl_cons, ih (c ^^^ b), ih (0 ^^^ b), Nat.zero_xor,
      Nat.xor_assoc]

theorem xor_left_cancel {a b c : Nat} (h : a ^^^ b = a ^^^ c) : b = c := by
  have h2 : a ^^^ (a ^^^ b) = a ^^^ (a ^^^ c) := by rw [h]
  rwa [← Nat.xor_assoc, ← Nat.xor_assoc, Nat.xor_self, Nat.zero_xor, Nat.zero_xor] at h2

theorem foldl_xor_one_change (l1 l2 : List Nat) (i : Nat) (c : Nat)
    (hlen : l1.length = l2.length) (hi : i < l1.length) (hne : l1[i]? ≠ l2[i]?)
    (heq : ∀ j, j ≠ i → l1[j]? = l2[j]?) :
    l1.foldl (fun c b => c ^^^ b) c ≠ l2.foldl (fun c b => c ^^^ b) c := by
  induction l1 generalizing l2 i c with
  | nil => simp at hi
  | cons a t1 ih =>
    cases l2 with
    | nil => simp at hlen
    | cons b t2 =>
      cases i with
      | zero =>
        have hab : a ≠ b := by
          intro h
          apply hne
          simp [h]
        have ht : t1 = t2 := by
          apply List.ext_getElem?
          intro j
          have := heq (j + 1) (by omega)
          simpa using this
        rw [List.foldl_cons, List.foldl_cons, ht, foldl_xor_start t2 (c ^^^ a),
          foldl_xor_start t2 (c ^^^ b)]
        intro h
        rw [Nat.xor_comm (c ^^^ a), Nat.xor_comm (c ^^^ b)] at h
        exact hab (xor_left_cancel (xor_left_cancel h))
      | succ i =>
        have hab : a = b := by
          have := heq 0 (by omega)
          simpa using this
        rw [List.foldl_cons, List.foldl_cons, hab]
        apply ih t2 i (c ^^^ b)
        · simpa using hlen
        · simpa using hi
        · simpa using hne
        · intro j hj
          have := heq (j + 1) (by omega)
          simpa using this

/-! ## The checksum -/

/-- C15: for every input byte sequence the exclusive or of all transmitted
bytes, the payload bytes together with the trailer byte, is `0xFF`; a receiver
that starts an accumulator at `0xFF` and combines every received byte into it,
the trailer included, ends with `0x00`. -/
theorem transmitted_bytes_xor (bs : List Nat) (hbs : ∀ b ∈ bs, b < 256) :
    (bs ++ [main_trailer (InFile.opened bs)]).foldl (fun c b => c ^^^ b) 0 = 0xFF
      ∧ (bs ++ [main_trailer (InFile.opened bs)]).foldl (fun c b => c ^^^ b) 0xFF = 0x00 := by
  rw [main_trailer_opened bs hbs]
  have h := foldl_xor_start bs 0xFF
  constructor
  · rw [List.foldl_append, List.foldl_cons, List.foldl_nil, h, Nat.xor_comm 255,
      ← Nat.xor_assoc, Nat.xor_self, Nat.zero_xor]
  · rw [List.foldl_append, List.foldl_cons, List.foldl_nil, Nat.xor_self]

/-- Witness of `transmitted_bytes_xor` on the input `0x12 0x34`. -/
theorem transmitted_bytes_xor_witness :
    (∀ b ∈ [0x12, 0x34], b < 256)
      ∧ ([0x12, 0x34] ++ [main_trailer (InFile.opened [0x12, 0x34])]).foldl
          (fun c b => c ^^^ b) 0 = 0xFF :=
  ⟨by decide, (transmitted_bytes_xor [0x12, 0x34] (by decide)).1⟩

/-- C16: two input byte sequences of the same length that differ in exactly
one position have different trailer bytes. -/
theorem single_byte_change_changes_trailer (bs1 bs2 : List Nat)
    (h1 : ∀ b ∈ bs1, b < 256) (h2 : ∀ b ∈ bs2, b < 256)
    (hlen : bs1.length = bs2.length) (i : Nat) (hi : i < bs1.length)
    (hne : bs1[i]? ≠ bs2[i]?) (heq : ∀ j, j ≠ i → bs1[j]? = bs2[j]?) :
    main_trailer (InFile.opened bs1) ≠ main_trailer (InFile.opened bs2) := by
  rw [main_trailer_opened bs1 h1, main_trailer_opened bs2 h2]
  exact foldl_xor_one_change bs1 bs2 i 0xFF hlen hi hne heq

/-- Witness of `single_byte_change_changes_trailer` on the inputs
`0x10 0x20 0x30` and `0x10 0x21 0x30`, which differ in position 1. -/
theorem single_byte_change_changes_trailer_witness :
    main_trailer (InFile.opened [0x10, 0x20, 0x30])
      ≠ main_trailer (InFile.opened [0x10, 0x21, 0x30]) :=
  single_byte_change_changes_trailer [0x10, 0x20, 0x30] [0x10, 0x21, 0x30]
    (by decide) (by decide) rfl 1 (by decide) (by decide)
    (by
      intro j hj
      match j with
      | 0 => rfl
      | 1 => exact absurd rfl hj
      | 2 => rfl
      | (n + 3) => rfl)

theorem parse_args_loop_no_error (argv : List String) (n : Nat) :
    ∀ (i : Nat) (files : Files), argv.length - i = n →
      parse_args_loop argv i files ≠ ParseOutcome.arg_error := by
  induction n using Nat.strong_induction_on with
  | _ n ih =>
    intro i files hn
    rw [parse_args_loop]
    by_cases h : i < argv.length
    · rw [dif_pos h]
      by_cases ho : argv[i] = "-o"
      · rw [if_pos ho, if_neg (by omega)]
        exact ih (argv.length - (i + 1 + 1)) (by omega) _ _ rfl
      · rw [if_neg ho]
        exact ih (argv.length - (i + 1)) (by omega) _ _ rfl
    · rw [dif_neg h]
      exact fun hc => ParseOutcome.noConfusion hc

theorem parse_args_loop_done (argv : List String) (i : Nat) (files : Files)
    (h : argv.length ≤ i) : parse_args_loop argv i files = ParseOutcome.parsed files := by
  rw [parse_args_loop, dif_neg (by omega)]

theorem parse_args_loop_dash_o (argv : List String) (i : Nat) (files : Files)
    (h : i < argv.length) (ho : argv[i] = "-o") :
    parse_args_loop argv i files
      = parse_args_loop argv (i + 1 + 1) { files with outfile := Stream.fopen argv[i + 1]? } := by
  rw [parse_args_loop, dif_pos h, if_pos ho, if_neg (by omega)]

theorem parse_args_loop_path (argv : List String) (i : Nat) (files : Files)
    (h : i < argv.length) (ho : argv[i] ≠ "-o") :
    parse_args_loop argv i files
      = parse_args_loop argv (i + 1) { files with infile := Stream.fopen (some argv[i]) } := by
  rw [parse_args_loop, dif_pos h, if_neg ho]

theorem parse_args_dash_o_last :
    parse_args ["encode", "-o"]
      = ParseOutcome.parsed { infile := Stream.std, outfile := Stream.fopen none } := by
  unfold parse_args
  rw [parse_args_loop_dash_o _ 1 _ (by decide) (by decide),
    parse_args_loop_done _ _ _ (by decide)]
  rfl

/-! ## Argument parsing -/

/-- C13, evaluated on the program: when `-o` is the last argument the test
`i > argc` is made with `i = argc` and fails, so no argument error is reported
and `fopen` is called on the null pointer `argv[argc]`; the branch that
reports the argument error is taken for no argument list at all. -/
theorem dash_o_last_not_reported :
    parse_args ["encode", "-o"]
        = ParseOutcome.parsed { infile := Stream.std, outfile := Stream.fopen none }
      ∧ (∀ infile : String, parse_args ["encode", infile, "-o"]
        = ParseOutcome.parsed
            { infile := Stream.fopen (some infile), outfile := Stream.fopen none }
          ∨ infile = "-o")
      ∧ ∀ argv : List String, parse_args argv ≠ ParseOutcome.arg_error := by
  refine ⟨parse_args_dash_o_last, ?_, fun argv => parse_args_loop_no_error argv _ _ _ rfl⟩
  intro infile
  by_cases h : infile = "-o"
  · exact Or.inr h
  · left
    unfold parse_args
    rw [parse_args_loop_path _ 1 _ (by simp) (by simpa using h),
      parse_args_loop_dash_o _ 2 _ (by simp) (by simp),
      parse_args_loop_done _ _ _ (by simp)]
    rfl

theorem fputc_to_calls (fails : Nat → Bool) (c : Int) (out : OutFile) :
    (fputc_to fails c out).calls = out.calls + 1 := by
  unfold fputc_to
  split <;> rfl

theorem fputc_to_error (fails : Nat → Bool) (c : Int) (out : OutFile) :
    (fputc_to fails c out).error = (out.error || fails out.calls) := by
  unfold fputc_to
  by_cases h : fails out.calls = true
  · simp [h]
  · simp [h]

theorem write_wave_to_calls (fails : Nat → Bool) (n : Nat) (dt t : ℝ) (out : OutFile) :
    (write_wave_to fails n dt t out).calls = out.calls + n := by
  induction n generalizing t out with
  | zero => rfl
  | succ n ih =>
    rw [write_wave_to, ih, fputc_to_calls]
    omega

theorem write_wave_to_error (fails : Nat → Bool) (n : Nat) (dt t : ℝ) (out : OutFile) :
    (write_wave_to fails n dt t out).error = true
      ↔ out.error = true ∨ ∃ j, j < n ∧ fails (out.calls + j) = true := by
  induction n generalizing t out with
  | zero => simp [write_wave_to]
  | succ n ih =>
    rw [write_wave_to, ih, fputc_to_error, fputc_to_calls]
    simp only [Bool.or_eq_true]
    constructor
    · rintro ((h | h) | ⟨j, hj, h⟩)
      · exact Or.inl h
      · exact Or.inr ⟨0, by omega, h⟩
      · exact Or.inr ⟨j + 1, by omega, by rw [← h]; congr 1; omega⟩
    · rintro (h | ⟨j, hj, h⟩)
      · exact Or.inl (Or.inl h)
      · cases j with
        | zero => exact Or.inl (Or.inr h)
        | succ j => exact Or.inr ⟨j, by omega, by rw [← h]; congr 1; omega⟩

theorem write_byte_loop_to_calls_ge (fails : Nat → Bool) (n data : Nat) (out : OutFile) :
    out.calls ≤ (write_byte_loop_to fails n data out).calls := by
  induction n generalizing data out with
  | zero => exact Nat.le_refl _
  | succ n ih =>
    rw [write_byte_loop_to]
    refine Nat.le_trans ?_ (ih _ _)
    split
    · rw [write_wave_to_calls]; omega
    · rw [write_wave_to_calls]; omega

/-- If no write fails, `write_byte` leaves the error indicator clear. -/
theorem write_byte_loop_to_no_error (fails : Nat → Bool) (hf : ∀ k, fails k = false)
    (n data : Nat) (out : OutFile) (ho : out.error = false) :
    (write_byte_loop_to fails n data out).error = false := by
  induction n generalizing data out with
  | zero => exact ho
  | succ n ih =>
    rw [write_byte_loop_to]
    apply ih
    have hw : ∀ m dt t, (write_wave_to fails m dt t out).error = false := by
      intro m dt t
      rw [← Bool.not_eq_true, write_wave_to_error]
      simp [ho, hf]
    split
    · exact hw _ _ _
    · exact hw _ _ _

/-- The error indicator is never cleared by `write_wave`. -/
theorem write_wave_to_sticky (fails : Nat → Bool) (n : Nat) (dt t : ℝ) (out : OutFile)
    (ho : out.error = true) : (write_wave_to fails n dt t out).error = true :=
  (write_wave_to_error fails n dt t out).mpr (Or.inl ho)

theorem write_byte_loop_to_sticky (fails : Nat → Bool) (n data : Nat) (out : OutFile)
    (ho : out.error = true) : (write_byte_loop_to fails n data out).error = true := by
  induction n generalizing data out with
  | zero => exact ho
  | succ n ih =>
    rw [write_byte_loop_to]
    apply ih
    split
    · exact write_wave_to_sticky _ _ _ _ _ ho
    · exact write_wave_to_sticky _ _ _ _ _ ho

theorem main_loop_to_empty (fails : Nat → Bool) (checksum : Nat) (out : OutFile) :
    main_loop_to fails checksum out (InFile.opened []) = LoopExit.broke checksum out := by
  rw [main_loop_to]
  simp [InFile.opened, fgetc, feof]

theorem main_loop_to_cons (fails : Nat → Bool) (checksum : Nat) (out : OutFile) (b : Nat)
    (rest : List Nat) :
    main_loop_to fails checksum out (InFile.opened (b :: rest))
      = if ferror (write_byte_to fails (b % 256) out) = true
          then LoopExit.write_failed (write_byte_to fails (b % 256) out)
        else main_loop_to fails ((checksum ^^^ (b % 256)) % 256)
          (write_byte_to fails (b % 256) out) (InFile.opened rest) := by
  rw [main_loop_to]
  have h2 : (fgetc (InFile.opened (b :: rest))).2 = InFile.opened rest := by
    simp [InFile.opened, fgetc]
  have h1 : (fgetc (InFile.opened (b :: rest))).1 = ((b % 256 : Nat) : Int) := by
    simp [InFile.opened, fgetc]
  rw [h2, h1, to_char_fgetc_byte]
  have h3 : feof (InFile.opened rest) = false := rfl
  simp only [h3, Bool.false_eq_true, dite_false]

theorem main_exit_empty (fails : Nat → Bool) :
    main_exit fails (InFile.opened [])
      = (0, write_byte_to fails 0xFF
          (write_tape_in_tone_to fails (write_entry_tone_to fails OutFile.opened))) := by
  unfold main_exit
  simp only [main_loop_to_empty]

theorem entry_tone_first_write_fails (fails : Nat → Bool) (h : fails 0 = true) :
    (write_entry_tone_to fails OutFile.opened).error = true := by
  unfold write_entry_tone_to
  rw [write_wave_to_error]
  right
  exact ⟨0, by decide, h⟩

theorem exists_lt_add (P : Nat → Prop) (a N M : Nat) :
    ((∃ j, j < N ∧ P (a + j)) ∨ ∃ j, j < M ∧ P (a + N + j)) ↔ ∃ j, j < N + M ∧ P (a + j) := by
  constructor
  · rintro (⟨j, hj, h⟩ | ⟨j, hj, h⟩)
    · exact ⟨j, by omega, h⟩
    · exact ⟨N + j, by omega, by rw [← Nat.add_assoc]; exact h⟩
  · rintro ⟨j, hj, h⟩
    by_cases hjN : j < N
    · exact Or.inl ⟨j, hjN, h⟩
    · refine Or.inr ⟨j - N, by omega, ?_⟩
      have e : a + N + (j - N) = a + j := by omega
      rw [e]
      exact h

theorem write_byte_loop_to_calls (fails : Nat → Bool) (n data : Nat) (out : OutFile) :
    (write_byte_loop_to fails n data out).calls
      = out.calls + ((write_byte_loop_calls n data).map WaveCall.samples).sum := by
  induction n generalizing data out with
  | zero => rfl
  | succ n ih =>
    rw [write_byte_loop_to, ih, write_byte_loop_calls, List.map_cons, List.sum_cons]
    by_cases h : data &&& 0x80 ≠ 0
    · rw [if_pos h, if_pos h, write_wave_to_calls, Nat.add_assoc]
      rfl
    · rw [if_neg h, if_neg h, write_wave_to_calls, Nat.add_assoc]
      rfl

theorem write_byte_loop_to_error (fails : Nat → Bool) (n data : Nat) (out : OutFile) :
    (write_byte_loop_to fails n data out).error = true
      ↔ out.error = true
        ∨ ∃ j, j < ((write_byte_loop_calls n data).map WaveCall.samples).sum
            ∧ fails (out.calls + j) = true := by
  induction n generalizing data out with
  | zero => simp [write_byte_loop_to, write_byte_loop_calls]
  | succ n ih =>
    rw [write_byte_loop_to, ih, write_byte_loop_calls, List.map_cons, List.sum_cons,
      ← exists_lt_add (fun k => fails k = true), ← or_assoc]
    by_cases h : data &&& 0x80 ≠ 0
    · rw [if_pos h, if_pos h, write_wave_to_calls, write_wave_to_error]
      rfl
    · rw [if_neg h, if_neg h, write_wave_to_calls, write_wave_to_error]
      rfl

theorem write_byte_to_calls (fails : Nat → Bool) (b : Nat) (out : OutFile) :
    (write_byte_to fails (b % 256) out).calls = out.calls + spec_byte_duration (b % 256) := by
  unfold write_byte_to
  rw [write_byte_loop_to_calls]
  exact congrArg _ (write_byte_calls_duration (b % 256) (Nat.mod_lt _ (by decide)))

theorem write_byte_to_error (fails : Nat → Bool) (b : Nat) (out : OutFile) :
    (write_byte_to fails (b % 256) out).error = true
      ↔ out.error = true
        ∨ ∃ j, j < spec_byte_duration (b % 256) ∧ fails (out.calls + j) = true := by
  unfold write_byte_to
  rw [write_byte_loop_to_error]
  have e : ((write_byte_loop_calls 8 (b % 256)).map WaveCall.samples).sum
      = spec_byte_duration (b % 256) :=
    write_byte_calls_duration (b % 256) (Nat.mod_lt _ (by decide))
  rw [e]

theorem payload_to_calls (fails : Nat → Bool) (bs : List Nat) (out : OutFile) :
    (bs.foldl (fun o b => write_byte_to fails (b % 256) o) out).calls
      = out.calls + (bs.map (fun b => spec_byte_duration (b % 256))).sum := by
  induction bs generalizing out with
  | nil => rfl
  | cons b rest ih =>
    rw [List.foldl_cons, ih, write_byte_to_calls, List.map_cons, List.sum_cons, Nat.add_assoc]

theorem payload_to_error (fails : Nat → Bool) (bs : List Nat) (out : OutFile) :
    (bs.foldl (fun o b => write_byte_to fails (b % 256) o) out).error = true
      ↔ out.error = true
        ∨ ∃ j, j < (bs.map (fun b => spec_byte_duration (b % 256))).sum
            ∧ fails (out.calls + j) = true := by
  induction bs generalizing out with
  | nil => simp
  | cons b rest ih =>
    rw [List.foldl_cons, ih, write_byte_to_calls, write_byte_to_error, List.map_cons,
      List.sum_cons, ← exists_lt_add (fun k => fails k = true), ← or_assoc]

/-- The loop of `main` on a file whose writes may fail: it is left through
`break` exactly when the input is empty or the error indicator is clear after
the last payload byte. -/
theorem main_loop_to_opened (fails : Nat → Bool) (bs : List Nat) (checksum : Nat)
    (out : OutFile) :
    (main_loop_to fails checksum out (InFile.opened bs)
        = LoopExit.broke (bs.foldl (fun c b => (c ^^^ (b % 256)) % 256) checksum)
            (bs.foldl (fun o b => write_byte_to fails (b % 256) o) out)
      ∧ (bs = [] ∨ (bs.foldl (fun o b => write_byte_to fails (b % 256) o) out).error = false))
    ∨ (∃ o, main_loop_to fails checksum out (InFile.opened bs) = LoopExit.write_failed o
      ∧ o.error = true ∧ bs ≠ []
      ∧ (bs.foldl (fun o b => write_byte_to fails (b % 256) o) out).error = true) := by
  induction bs generalizing checksum out with
  | nil =>
    left
    exact ⟨main_loop_to_empty fails checksum out, Or.inl rfl⟩
  | cons b rest ih =>
    rw [main_loop_to_cons]
    simp only [List.foldl_cons]
    by_cases he : ferror (write_byte_to fails (b % 256) out) = true
    · rw [if_pos he]
      right
      refine ⟨_, rfl, he, List.cons_ne_nil _ _, ?_⟩
      rw [payload_to_error]
      exact Or.inl he
    · rw [if_neg he]
      rcases ih ((checksum ^^^ (b % 256)) % 256) (write_byte_to fails (b % 256) out) with
        ⟨hc, hr⟩ | ⟨o, ho, hoe, _, hf⟩
      · left
        refine ⟨hc, Or.inr ?_⟩
        rcases hr with hr | hr
        · rw [hr, List.foldl_nil]
          simpa [ferror] using he
        · exact hr
      · right
        exact ⟨o, ho, hoe, List.cons_ne_nil _ _, hf⟩

theorem preamble_to_calls (fails : Nat → Bool) :
    (write_tape_in_tone_to fails (write_entry_tone_to fails OutFile.opened)).calls
      = ENTRY_TONE_DURATION + (TAPE_IN_PERIOD / 2 + ZERO_PERIOD / 2) := by
  unfold write_tape_in_tone_to write_entry_tone_to
  rw [write_wave_to_calls, write_wave_to_calls, write_wave_to_calls]
  simp only [OutFile.opened]
  omega

theorem preamble_to_error (fails : Nat → Bool) :
    (write_tape_in_tone_to fails (write_entry_tone_to fails OutFile.opened)).error = true
      ↔ ∃ j, j < ENTRY_TONE_DURATION + (TAPE_IN_PERIOD / 2 + ZERO_PERIOD / 2)
          ∧ fails j = true := by
  unfold write_tape_in_tone_to write_entry_tone_to
  rw [write_wave_to_error, write_wave_to_calls, write_wave_to_error, write_wave_to_calls,
    write_wave_to_error]
  simp only [OutFile.opened, Bool.false_eq_true, false_or, Nat.zero_add]
  have h1 := exists_lt_add (fun k => fails k = true) 0 ENTRY_TONE_DURATION (TAPE_IN_PERIOD / 2)
  have h2 := exists_lt_add (fun k => fails k = true) 0
    (ENTRY_TONE_DURATION + TAPE_IN_PERIOD / 2) (ZERO_PERIOD / 2)
  simp only [Nat.zero_add] at h1 h2
  rw [h1, h2, Nat.add_assoc]

theorem main_exit_of_broke (fails : Nat → Bool) (infile : InFile) (c : Nat) (o : OutFile)
    (h : main_loop_to fails 0xFF
        (write_tape_in_tone_to fails (write_entry_tone_to fails OutFile.opened)) infile
      = LoopExit.broke c o) :
    main_exit fails infile = (0, write_byte_to fails c o) := by
  unfold main_exit
  simp only [h]

theorem main_exit_of_write_failed (fails : Nat → Bool) (infile : InFile) (o : OutFile)
    (h : main_loop_to fails 0xFF
        (write_tape_in_tone_to fails (write_entry_tone_to fails OutFile.opened)) infile
      = LoopExit.write_failed o) :
    main_exit fails infile = (1, o) := by
  unfold main_exit
  simp only [h]

/-- Exit status of `main` on a file whose writes may fail. -/
theorem main_exit_status (fails : Nat → Bool) (bs : List Nat) :
    ((main_exit fails (InFile.opened bs)).1 = 0 ∨ (main_exit fails (InFile.opened bs)).1 = 1)
      ∧ ((main_exit fails (InFile.opened bs)).1 = 1
        ↔ bs ≠ [] ∧ ∃ k, k < ENTRY_TONE_DURATION + (TAPE_IN_PERIOD / 2 + ZERO_PERIOD / 2)
              + (bs.map (fun b => spec_byte_duration (b % 256))).sum ∧ fails k = true) := by
  have hiff := payload_to_error fails bs
    (write_tape_in_tone_to fails (write_entry_tone_to fails OutFile.opened))
  rw [preamble_to_error, preamble_to_calls] at hiff
  have hadd := exists_lt_add (fun k => fails k = true) 0
    (ENTRY_TONE_DURATION + (TAPE_IN_PERIOD / 2 + ZERO_PERIOD / 2))
    (bs.map (fun b => spec_byte_duration (b % 256))).sum
  simp only [Nat.zero_add] at hadd
  rw [hadd] at hiff
  rcases main_loop_to_opened fails bs 0xFF
      (write_tape_in_tone_to fails (write_entry_tone_to fails OutFile.opened)) with
    ⟨hc, hr⟩ | ⟨o, ho, _, hne, hf⟩
  · rw [main_exit_of_broke fails _ _ _ hc]
    refine ⟨Or.inl rfl, ?_⟩
    constructor
    · intro h
      exact absurd h (by simp)
    · rintro ⟨hne, hk⟩
      rcases hr with hr | hr
      · exact absurd hr hne
      · rw [hiff.mpr hk] at hr
        exact absurd hr (by decide)
  · rw [main_exit_of_write_failed fails _ _ ho]
    refine ⟨Or.inr rfl, ?_⟩
    constructor
    · intro _
      exact ⟨hne, hiff.mp hf⟩
    · intro _
      rfl

theorem ferror_snd (status : Nat) (o : OutFile) : ferror (status, o).2 = o.error := rfl

theorem trailer_write_fails (o : OutFile) (hcalls : o.calls = 46941) :
    (write_byte_to (fun k => decide (46941 ≤ k)) (0xFF % 256) o).error = true := by
  rw [write_byte_to_error, hcalls]
  right
  refine ⟨0, by decide, ?_⟩
  simp

theorem no_failure_before_trailer (j : Nat)
    (hj : j < ENTRY_TONE_DURATION + (TAPE_IN_PERIOD / 2 + ZERO_PERIOD / 2)
      + ([0x00].map (fun b => spec_byte_duration (b % 256))).sum) :
    ¬ (fun k => decide (46941 ≤ k)) j = true := by
  have e : ENTRY_TONE_DURATION + (TAPE_IN_PERIOD / 2 + ZERO_PERIOD / 2)
      + ([0x00].map (fun b => spec_byte_duration (b % 256))).sum = 46941 := by decide
  rw [e] at hj
  simp only [decide_eq_true_eq]
  omega

theorem main_exit_trailer_write_fails :
    (main_exit (fun k => decide (46941 ≤ k)) (InFile.opened [0x00])).1 = 0
      ∧ ferror (main_exit (fun k => decide (46941 ≤ k)) (InFile.opened [0x00])).2 = true := by
  have hst := main_exit_status (fun k => decide (46941 ≤ k)) [0x00]
  have h0 : (main_exit (fun k => decide (46941 ≤ k)) (InFile.opened [0x00])).1 = 0 := by
    rcases hst.1 with h | h
    · exact h
    · obtain ⟨_, k, hk, hfk⟩ := hst.2.mp h
      exact absurd hfk (no_failure_before_trailer k hk)
  refine ⟨h0, ?_⟩
  rcases main_loop_to_opened (fun k => decide (46941 ≤ k)) [0x00] 0xFF
      (write_tape_in_tone_to (fun k => decide (46941 ≤ k))
        (write_entry_tone_to (fun k => decide (46941 ≤ k)) OutFile.opened)) with
    ⟨hc, _⟩ | ⟨o, ho, _, _, _⟩
  · have hcalls := payload_to_calls (fun k => decide (46941 ≤ k)) [0x00]
      (write_tape_in_tone_to (fun k => decide (46941 ≤ k))
        (write_entry_tone_to (fun k => decide (46941 ≤ k)) OutFile.opened))
    have hN : ENTRY_TONE_DURATION + (TAPE_IN_PERIOD / 2 + ZERO_PERIOD / 2)
        + ([0x00].map (fun b => spec_byte_duration (b % 256))).sum = 46941 := by decide
    rw [preamble_to_calls, hN] at hcalls
    have hx : List.foldl (fun c b => (c ^^^ (b % 256)) % 256) 0xFF [0x00] = 0xFF % 256 := by
      decide
    have hw := trailer_write_fails _ hcalls
    rw [main_exit_of_broke _ _ _ _ hc, hx, ferror_snd]
    exact hw
  · rw [main_exit_of_write_failed _ _ _ ho] at h0
    exact absurd h0 (by simp)

/-! ## Failed writes -/

/-- C14, evaluated on the program: `ferror(outfile)` is tested only after the
`write_byte` of a payload byte.  On the empty input `main` returns 0 whatever
writes fail, also when every write fails, the error indicator is set and no
byte reaches the file; on any input, `main` ends with status 1 exactly when
the input is not empty and a write fails before the trailer byte, so a write
that fails during the trailer byte leaves the status 0. -/
theorem failed_write_exit_status :
    (∀ fails : Nat → Bool, (main_exit fails (InFile.opened [])).1 = 0)
      ∧ (main_exit (fun _ => true) (InFile.opened [])).1 = 0
      ∧ ferror (main_exit (fun _ => true) (InFile.opened [])).2 = true
      ∧ (main_exit (fun k => decide (46941 ≤ k)) (InFile.opened [0x00])).1 = 0
      ∧ ferror (main_exit (fun k => decide (46941 ≤ k)) (InFile.opened [0x00])).2 = true
      ∧ ∀ (fails : Nat → Bool) (bs : List Nat),
          ((main_exit fails (InFile.opened bs)).1 = 0 ∨ (main_exit fails (InFile.opened bs)).1 = 1)
          ∧ ((main_exit fails (InFile.opened bs)).1 = 1
            ↔ bs ≠ [] ∧ ∃ k, k < ENTRY_TONE_DURATION + (TAPE_IN_PERIOD / 2 + ZERO_PERIOD / 2)
                  + (bs.map (fun b => spec_byte_duration (b % 256))).sum
                ∧ fails k = true) := by
  have hempty : ∀ fails : Nat → Bool, (main_exit fails (InFile.opened [])).1 = 0 := by
    intro fails
    rw [main_exit_empty]
  have htrailer := main_exit_trailer_write_fails
  refine ⟨hempty, hempty _, ?_, ?_, ?_, main_exit_status⟩
  · rw [main_exit_empty]
    unfold ferror write_byte_to
    apply write_byte_loop_to_sticky
    unfold write_tape_in_tone_to
    apply write_wave_to_sticky
    apply write_wave_to_sticky
    exact entry_tone_first_write_fails _ rfl
  · exact htrailer.1
  · exact htrailer.2

theorem binary64_write_wave_length (sin : Int → Int) (n : Nat) (dt t : Int) :
    (Binary64.write_wave sin n dt t).length = n := by
  induction n generalizing t with
  | zero => rfl
  | succ n ih => simp [Binary64.write_wave, ih]

theorem binary64_write_wave_t_succ (i : Nat) (dt t : Int) :
    Binary64.write_wave_t (i + 1) dt t = Binary64.add (Binary64.write_wave_t i dt t) dt := by
  induction i generalizing t with
  | zero => rfl
  | succ i ih =>
    rw [Binary64.write_wave_t, ih (Binary64.add t dt)]
    rfl

theorem binary64_write_wave_getElem? (sin : Int → Int) (n : Nat) (dt t : Int) (i : Nat)
    (hi : i < n) :
    (Binary64.write_wave sin n dt t)[i]?
      = some (fputc (Binary64.to_int
          (Binary64.add (Binary64.mul (Binary64.of_nat 127) (sin (Binary64.write_wave_t i dt t)))
            (Binary64.of_nat 127)))) := by
  induction n generalizing t i with
  | zero => omega
  | succ n ih =>
    cases i with
    | zero => simp [Binary64.write_wave, Binary64.write_wave_t]
    | succ i =>
      rw [Binary64.write_wave, List.getElem?_cons_succ, Binary64.write_wave_t]
      exact ih (Binary64.add t dt) i (by omega)

theorem binary64_phase_exact_ne :
    Binary64.write_wave_t 3 Binary64.ZERO_DELTA_THETA (Binary64.of_nat 0)
      ≠ Binary64.of_nat 0 + ((3 : Nat) : Int) * Binary64.ZERO_DELTA_THETA := by
  decide!

theorem binary64_phase_rounded_ne :
    Binary64.write_wave_t 6 Binary64.ZERO_DELTA_THETA (Binary64.of_nat 0)
      ≠ Binary64.add (Binary64.of_nat 0)
          (Binary64.mul (Binary64.of_nat 6) Binary64.ZERO_DELTA_THETA) := by
  decide!

theorem binary64_toReal_inj (a b : Int) (h : Binary64.toReal a = Binary64.toReal b) : a = b := by
  have hc : ((2 : ℝ) ^ 1074) ≠ 0 := pow_ne_zero _ two_ne_zero
  have h2 : (a : ℝ) = (b : ℝ) := (div_left_inj' hc).mp h
  exact_mod_cast h2

theorem binary64_toReal_closed_form (t0 dt : Int) (i : Nat) :
    Binary64.toReal t0 + (i : ℝ) * Binary64.toReal dt = Binary64.toReal (t0 + (i : Int) * dt) := by
  unfold Binary64.toReal
  push_cast
  ring

/-! ## The waveform generator in double arithmetic -/

/-- C4, as the program behaves: for every sample count `n` and all doubles
`dt` and `t0`, `write_wave` writes exactly `n` samples, and the `i`-th of them,
for `i` from `0` to `n - 1`, is the conversion to `int` of
`127.0 * sin(t_i) + 127.0` evaluated in double arithmetic with the sine of the
C library, where `t_i` is the angle accumulated by the loop: `t_0 = t0` and
`t_(i+1)` is the double nearest to `t_i + dt`. -/
theorem write_wave_accumulated_phase (sin : Int → Int) (n : Nat) (dt t0 : Int) :
    (Binary64.write_wave sin n dt t0).length = n
      ∧ (∀ i, i < n → (Binary64.write_wave sin n dt t0)[i]?
          = some (fputc (Binary64.to_int
              (Binary64.add
                (Binary64.mul (Binary64.of_nat 127) (sin (Binary64.write_wave_t i dt t0)))
                (Binary64.of_nat 127)))))
      ∧ Binary64.write_wave_t 0 dt t0 = t0
      ∧ (∀ i, Binary64.write_wave_t (i + 1) dt t0
          = Binary64.add (Binary64.write_wave_t i dt t0) dt) :=
  ⟨binary64_write_wave_length sin n dt t0,
    fun i hi => binary64_write_wave_getElem? sin n dt t0 i hi, rfl,
    fun i => binary64_write_wave_t_succ i dt t0⟩

/-- C4, as the specification states it, fails: in the double arithmetic of the
program the angle accumulated by repeated addition of `ZERO_DELTA_THETA` to
`0.0` is not the closed form.  After 3 additions it is not the real number
`0 + 3 * ZERO_DELTA_THETA`, and after 6 additions it is not the double
`0.0 + 6 * ZERO_DELTA_THETA` either. -/
theorem accumulated_phase_not_closed_form :
    Binary64.toReal (Binary64.write_wave_t 3 Binary64.ZERO_DELTA_THETA (Binary64.of_nat 0))
        ≠ Binary64.toReal (Binary64.of_nat 0)
          + ((3 : Nat) : ℝ) * Binary64.toReal Binary64.ZERO_DELTA_THETA
      ∧ Binary64.write_wave_t 6 Binary64.ZERO_DELTA_THETA (Binary64.of_nat 0)
        ≠ Binary64.add (Binary64.of_nat 0)
            (Binary64.mul (Binary64.of_nat 6) Binary64.ZERO_DELTA_THETA) := by
  refine ⟨?_, binary64_phase_rounded_ne⟩
  intro h
  rw [binary64_toReal_closed_form] at h
  exact binary64_phase_exact_ne (binary64_toReal_inj _ _ h)

end CassetteEncoder
